import Mathlib

/-!
Verification of the NetworkXum graph-benchmark repository.

The development embeds the relational adapter `PlainSQL`
(src/pygraphdb/plain_sql.py), the abstract base class `GraphBase`
(src/pygraphdb/graph_base.py), the Cypher adapter `Neo4j`
(src/pygraphdb/graph_neo4j.py) and the benchmark runner `P3Bench`
(src/benchmarks/P3Bench.py) as executable Lean definitions, and proves
or refutes the specified properties about them.

Floating-point edge weights are modelled as rationals: every weight
manipulation performed by the embedded code (copying, summing a list,
Python `int()` truncation via the `%d` format specifier) is exact on the
values the benchmark uses, so no rounding behaviour is lost.

A `table_edges` row (`EdgeSQL`) has columns `_id`, `v_from`, `v_to`,
`weight` (plain_sql.py lines 25-35); note that there is NO `directed`
column.  The SQL session state is modelled as the list of stored rows in
insertion (primary-key) order, which is the order SQLAlchemy yields rows
for `.first()` / `.all()` on these unordered queries over an
autoincrement primary key.
-/

namespace NetworkXum

/-- Modelled from the spec: the `Edge` record (`pygraphdb/edge.py` is not
part of the provided sources).  Per §3 of the spec an edge is an ordered
pair `(v_from, v_to)` of integer vertex ids, a weight (default 1.0), a
`directed` flag, and an optional backend-assigned `id` (the `'_id' in e`
check of the adapters tests whether that id is present). -/
structure Edge where
  v_from : Int
  v_to : Int
  weight : ℚ := 1
  directed : Bool := true
  id : Option Nat := none
deriving Repr, DecidableEq

/-- A stored row of `table_edges` (class `EdgeSQL`, plain_sql.py lines
25-35): integer primary key `_id`, indexed integer columns `v_from` and
`v_to`, and a float `weight`.  There is no `directed` column. -/
structure EdgeSQL where
  _id : Nat
  v_from : Int
  v_to : Int
  weight : ℚ
deriving Repr, DecidableEq

/-- The filter of `PlainSQL.find_edge` (plain_sql.py lines 80-84):
`and_(EdgeSQL.v_from == v_from, EdgeSQL.v_to == v_to)`. -/
def matchesFromTo (a b : Int) (r : EdgeSQL) : Bool :=
  r.v_from == a && r.v_to == b

/-- The filter of `PlainSQL.find_edge_or_inv` (plain_sql.py lines 86-96):
`or_(and_(v_from == v1, v_to == v2), and_(v_from == v2, v_to == v1))`. -/
def connects (v1 v2 : Int) (r : EdgeSQL) : Bool :=
  (r.v_from == v1 && r.v_to == v2) || (r.v_from == v2 && r.v_to == v1)

/-- Embeds `PlainSQL.find_edge(v_from, v_to)`: the query filters on the exact
`(v_from, v_to)` pair and returns `.first()` (plain_sql.py lines 80-84). -/
def find_edge (s : List EdgeSQL) (a b : Int) : Option EdgeSQL :=
  s.find? (matchesFromTo a b)

/-- Embeds `PlainSQL.find_edge_or_inv(v1, v2)`: filters on either orientation and
returns `.all()` — a list of every match (plain_sql.py lines 86-96). -/
def find_edge_or_inv (s : List EdgeSQL) (v1 v2 : Int) : List EdgeSQL :=
  s.filter (connects v1 v2)

/-- Embeds `PlainSQL.edges_related(v)`: rows with `v` as either endpoint
(plain_sql.py lines 104-108). -/
def edges_related (s : List EdgeSQL) (v : Int) : List EdgeSQL :=
  s.filter (fun r => r.v_from == v || r.v_to == v)

/-- Embeds `copies[0]['weight'] = e['weight']` (plain_sql.py line 178): overwrite
the weight of the first row satisfying the uniqueness filter. -/
def setWeightFirst (p : EdgeSQL → Bool) (w : ℚ) : List EdgeSQL → List EdgeSQL
  | [] => []
  | r :: rest =>
      if p r then { r with weight := w } :: rest
      else r :: setWeightFirst p w rest

/-- Embeds `PlainSQL.insert_edge(e, check_uniqness=True)` (plain_sql.py lines
161-179) with the default `check_uniqness=True`: if `e` carries an `_id`,
the copies are the rows with that primary key, otherwise the rows with the
same `(v_from, v_to)`; with no copy present the edge is added as a new row
(the fresh autoincrement key is the `fresh` argument; a caller-supplied
`_id` is kept as the primary key), otherwise the first copy's weight is
overwritten. -/
def insert_edge (s : List EdgeSQL) (e : Edge) (fresh : Nat) : List EdgeSQL :=
  match e.id with
  | some i =>
      if (s.filter (fun r => r._id == i)).isEmpty then
        s ++ [⟨i, e.v_from, e.v_to, e.weight⟩]
      else
        setWeightFirst (fun r => r._id == i) e.weight s
  | none =>
      if (s.filter (matchesFromTo e.v_from e.v_to)).isEmpty then
        s ++ [⟨fresh, e.v_from, e.v_to, e.weight⟩]
      else
        setWeightFirst (matchesFromTo e.v_from e.v_to) e.weight s

/-- Embeds `PlainSQL.remove_edge(e)` (plain_sql.py lines 181-191): with an `_id`
it deletes the rows carrying that primary key, otherwise it runs
`filter_by(v_from=…, v_to=…).delete()`, which deletes EVERY row matching
the exact `(v_from, v_to)` pair. -/
def remove_edge (s : List EdgeSQL) (e : Edge) : List EdgeSQL :=
  match e.id with
  | some i => s.filter (fun r => !(r._id == i))
  | none => s.filter (fun r => !(matchesFromTo e.v_from e.v_to r))

/-! ### Helper lemmas about the embedded SQL operations -/

theorem mem_setWeightFirst {p : EdgeSQL → Bool} {w : ℚ} {s : List EdgeSQL} :
    ∀ r ∈ setWeightFirst p w s, r ∈ s ∨ ∃ r0 ∈ s, r = { r0 with weight := w } := by
  induction s with
  | nil => intro r h; exact absurd h (List.not_mem_nil r)
  | cons x rest ih =>
      intro r h
      by_cases hx : p x = true
      · simp only [setWeightFirst, if_pos hx] at h
        rcases List.mem_cons.mp h with h1 | h1
        · exact Or.inr ⟨x, List.mem_cons_self x rest, h1⟩
        · exact Or.inl (List.mem_cons_of_mem x h1)
      · simp only [setWeightFirst, if_neg hx] at h
        rcases List.mem_cons.mp h with h1 | h1
        · exact Or.inl (h1 ▸ List.mem_cons_self x rest)
        · rcases ih r h1 with h2 | ⟨r0, hr0, he⟩
          · exact Or.inl (List.mem_cons_of_mem x h2)
          · exact Or.inr ⟨r0, List.mem_cons_of_mem x hr0, he⟩

theorem setWeightFirst_keeps_match {a b : Int} {w : ℚ} {s : List EdgeSQL}
    (h : ∃ r ∈ s, matchesFromTo a b r = true) :
    ∃ r ∈ setWeightFirst (matchesFromTo a b) w s, matchesFromTo a b r = true := by
  induction s with
  | nil => rcases h with ⟨r, hr, _⟩; exact absurd hr (List.not_mem_nil r)
  | cons x rest ih =>
      by_cases hx : matchesFromTo a b x = true
      · refine ⟨{ x with weight := w }, ?_, ?_⟩
        · simp only [setWeightFirst, if_pos hx]
          exact List.mem_cons_self _ _
        · simpa [matchesFromTo] using hx
      · rcases h with ⟨r, hr, hm⟩
        rcases List.mem_cons.mp hr with h1 | h1
        · exact absurd (h1 ▸ hm) hx
        · rcases ih ⟨r, h1, hm⟩ with ⟨r2, hr2, hm2⟩
          refine ⟨r2, ?_, hm2⟩
          simp only [setWeightFirst, if_neg hx]
          exact List.mem_cons_of_mem x hr2

theorem matchesFromTo_weight_irrel (a b : Int) (r0 : EdgeSQL) (w : ℚ) :
    matchesFromTo a b { r0 with weight := w } = matchesFromTo a b r0 := rfl

/-! ### C1: `find_edge` is a directed-only match -/

/-- C1 (counterexample): inserting the UNDIRECTED edge `(1, 2)` into an
empty store and looking up `find_edge(2, 1)` yields no match, although
the claim demands that both directions match for an undirected edge.
`table_edges` has no `directed` column and `PlainSQL.find_edge` filters
on the exact `(v_from, v_to)` pair only. -/
theorem find_edge_undirected_reverse_is_none :
    find_edge
      (insert_edge []
        { v_from := 1, v_to := 2, weight := 1, directed := false, id := none } 0)
      2 1 = none := by rfl

/-- C1 (amended): for every prior store `s`, every edge `e` carrying no
id whose endpoints differ, if `s` stores no row from `e.v_to` to
`e.v_from`, then after `insert_edge(e)` the lookup
`find_edge(e.v_from, e.v_to)` returns a match and
`find_edge(e.v_to, e.v_from)` returns none — irrespective of the
`directed` flag: `find_edge` matches only the stored orientation, for
directed and undirected edges alike. -/
theorem find_edge_directed_only (s : List EdgeSQL) (e : Edge) (fresh : Nat)
    (hid : e.id = none) (hne : e.v_from ≠ e.v_to)
    (hrev : ∀ r ∈ s, matchesFromTo e.v_to e.v_from r = false) :
    (find_edge (insert_edge s e fresh) e.v_from e.v_to).isSome = true ∧
      find_edge (insert_edge s e fresh) e.v_to e.v_from = none := by
  have hrow : matchesFromTo e.v_from e.v_to
      ⟨fresh, e.v_from, e.v_to, e.weight⟩ = true := by
    simp [matchesFromTo]
  have hrow_rev : matchesFromTo e.v_to e.v_from
      ⟨fresh, e.v_from, e.v_to, e.weight⟩ = false := by
    simp only [matchesFromTo]
    have : (e.v_from == e.v_to) = false := by
      exact beq_eq_false_iff_ne.mpr hne
    simp [this]
  rw [insert_edge, hid]
  by_cases hcop : ((s.filter (matchesFromTo e.v_from e.v_to)).isEmpty = true)
  · rw [if_pos hcop]
    have hnone : ∀ r ∈ s, ¬ matchesFromTo e.v_from e.v_to r = true := by
      intro r hr
      have := List.isEmpty_iff.mp hcop
      have := List.filter_eq_nil_iff.mp this
      exact this r hr
    constructor
    · apply List.find?_isSome.mpr
      exact ⟨_, List.mem_append_right s (List.mem_singleton_self _), hrow⟩
    · apply List.find?_eq_none.mpr
      intro x hx
      rcases List.mem_append.mp hx with h1 | h1
      · intro hcon
        rw [hrev x h1] at hcon
        exact Bool.false_ne_true hcon
      · rw [List.mem_singleton.mp h1]
        intro hcon
        rw [hrow_rev] at hcon
        exact Bool.false_ne_true hcon
  · rw [if_neg hcop]
    have hex : ∃ r ∈ s, matchesFromTo e.v_from e.v_to r = true := by
      have : ¬ (s.filter (matchesFromTo e.v_from e.v_to) = []) := by
        intro hnil; exact hcop (List.isEmpty_iff.mpr hnil)
      rcases List.exists_mem_of_ne_nil _ this with ⟨r, hr⟩
      exact ⟨r, List.mem_of_mem_filter hr, List.of_mem_filter hr⟩
    constructor
    · apply List.find?_isSome.mpr
      rcases setWeightFirst_keeps_match (w := e.weight) hex with ⟨r, hr, hm⟩
      exact ⟨r, hr, hm⟩
    · apply List.find?_eq_none.mpr
      intro x hx
      rcases mem_setWeightFirst x hx with h1 | ⟨r0, hr0, he⟩
      · intro hcon
        rw [hrev x h1] at hcon
        exact Bool.false_ne_true hcon
      · intro hcon
        rw [he, matchesFromTo_weight_irrel, hrev r0 hr0] at hcon
        exact Bool.false_ne_true hcon

/-- C1 (witness): the amended theorem applied to the directed edge
`(1, 2)` inserted into the empty store. -/
theorem find_edge_directed_only_witness :
    (find_edge
        (insert_edge []
          { v_from := 1, v_to := 2, weight := 1, directed := true, id := none } 0)
        1 2).isSome = true ∧
      find_edge
        (insert_edge []
          { v_from := 1, v_to := 2, weight := 1, directed := true, id := none } 0)
        2 1 = none :=
  find_edge_directed_only []
    { v_from := 1, v_to := 2, weight := 1, directed := true, id := none } 0
    rfl (by decide) (fun r hr => absurd hr (List.not_mem_nil r))

theorem connects_weight_irrel (a b : Int) (r0 : EdgeSQL) (w : ℚ) :
    connects a b { r0 with weight := w } = connects a b r0 := rfl

/-! ### C2: insert / remove round-trip -/

/-- C2 (counterexample): with the reverse row `(2, 1)` already stored,
inserting the edge `(1, 2)`, removing it again and then querying
`find_edge_or_inv(1, 2)` still returns the surviving reverse row — the
round-trip does NOT leave the store free of edges findable in either
direction: `remove_edge` only deletes the exact `(v_from, v_to)`
orientation. -/
theorem round_trip_reverse_row_survives :
    find_edge_or_inv
      (remove_edge
        (insert_edge [⟨0, 2, 1, 1⟩]
          { v_from := 1, v_to := 2, weight := 1, directed := true, id := none } 5)
        { v_from := 1, v_to := 2, weight := 1, directed := true, id := none })
      1 2 = [⟨0, 2, 1, 1⟩] ∧
      find_edge_or_inv
        (remove_edge
          (insert_edge [⟨0, 2, 1, 1⟩]
            { v_from := 1, v_to := 2, weight := 1, directed := true, id := none } 5)
          { v_from := 1, v_to := 2, weight := 1, directed := true, id := none })
        1 2 ≠ [] :=
  ⟨rfl, by decide⟩

/-- C2 (amended): for every edge `e` and every prior store holding no row
connecting `e.v_from` and `e.v_to` in either direction, `insert_edge(e)`
followed by `remove_edge(e)` followed by
`find_edge_or_inv(e.v_from, e.v_to)` returns the empty (no-match)
result. -/
theorem round_trip_no_match (s : List EdgeSQL) (e : Edge) (fresh : Nat)
    (h : ∀ r ∈ s, connects e.v_from e.v_to r = false) :
    find_edge_or_inv (remove_edge (insert_edge s e fresh) e) e.v_from e.v_to = [] := by
  apply List.filter_eq_nil_iff.mpr
  intro r hr
  have hkeep := List.of_mem_filter (by
    have : remove_edge (insert_edge s e fresh) e =
        (insert_edge s e fresh).filter
          (match e.id with
            | some i => fun r => !(r._id == i)
            | none => fun r => !(matchesFromTo e.v_from e.v_to r)) := by
      rw [remove_edge]
      cases e.id <;> rfl
    exact this ▸ hr)
  have hmem : r ∈ insert_edge s e fresh := by
    have : remove_edge (insert_edge s e fresh) e =
        (insert_edge s e fresh).filter
          (match e.id with
            | some i => fun r => !(r._id == i)
            | none => fun r => !(matchesFromTo e.v_from e.v_to r)) := by
      rw [remove_edge]
      cases e.id <;> rfl
    exact List.mem_of_mem_filter (this ▸ hr)
  intro hcon
  rcases hid : e.id with _ | i
  · rw [insert_edge, hid] at hmem
    rw [hid] at hkeep
    simp only [Bool.not_eq_true', Bool.not_eq_eq_eq_not, Bool.not_true] at hkeep
    by_cases hcop : ((s.filter (matchesFromTo e.v_from e.v_to)).isEmpty = true)
    · rw [if_pos hcop] at hmem
      rcases List.mem_append.mp hmem with h1 | h1
      · rw [h r h1] at hcon
        exact Bool.false_ne_true hcon
      · rw [List.mem_singleton.mp h1] at hkeep
        simp [matchesFromTo] at hkeep
    · rw [if_neg hcop] at hmem
      rcases mem_setWeightFirst r hmem with h1 | ⟨r0, hr0, he⟩
      · rw [h r h1] at hcon
        exact Bool.false_ne_true hcon
      · rw [he, connects_weight_irrel, h r0 hr0] at hcon
        exact Bool.false_ne_true hcon
  · rw [insert_edge, hid] at hmem
    dsimp only at hmem
    rw [hid] at hkeep
    simp only [Bool.not_eq_true', beq_eq_false_iff_ne, ne_eq] at hkeep
    by_cases hcop : ((s.filter (fun r => r._id == i)).isEmpty = true)
    · rw [if_pos hcop] at hmem
      rcases List.mem_append.mp hmem with h1 | h1
      · rw [h r h1] at hcon
        exact Bool.false_ne_true hcon
      · rw [List.mem_singleton.mp h1] at hkeep
        exact hkeep rfl
    · rw [if_neg hcop] at hmem
      rcases mem_setWeightFirst r hmem with h1 | ⟨r0, hr0, he⟩
      · rw [h r h1] at hcon
        exact Bool.false_ne_true hcon
      · rw [he, connects_weight_irrel, h r0 hr0] at hcon
        exact Bool.false_ne_true hcon

/-- C2 (witness): the amended round-trip theorem applied to the edge
`(1, 2)` and the empty prior store. -/
theorem round_trip_no_match_witness :
    find_edge_or_inv
      (remove_edge
        (insert_edge []
          { v_from := 1, v_to := 2, weight := 1, directed := true, id := none } 0)
        { v_from := 1, v_to := 2, weight := 1, directed := true, id := none })
      1 2 = [] :=
  round_trip_no_match []
    { v_from := 1, v_to := 2, weight := 1, directed := true, id := none } 0
    (fun r hr => absurd hr (List.not_mem_nil r))

/-! ### C3: `remove_edge` without an id deletes every matching row -/

/-- C3 (code bug): `GraphBase.remove_edge`'s contract (graph_base.py lines
27-34) says that without a known id "we only delete 1 edge, that has
matching `v_from` and `v_to` nodes"; but
`PlainSQL.remove_edge` runs `filter_by(v_from, v_to).delete()`, which
deletes EVERY matching row.  At the failing input — a store holding two
rows from 1 to 2 — removing the id-less edge `(1, 2)` empties the store:
both rows are deleted, not at most one. -/
theorem remove_edge_deletes_all_matching :
    remove_edge [⟨0, 1, 2, 1⟩, ⟨7, 1, 2, 2⟩]
        { v_from := 1, v_to := 2, weight := 1, directed := true, id := none } = [] ∧
      ([⟨0, 1, 2, 1⟩, ⟨7, 1, 2, 2⟩] : List EdgeSQL).length = 2 :=
  ⟨rfl, rfl⟩

/-! ### C9: `find_edge_or_inv` returns a list, not a single edge -/

/-- C9 (code bug): `PlainSQL.find_edge_or_inv` is annotated
`-> Optional[EdgeSQL]` (a single edge or none) but returns `.all()`:
at a store holding rows in both orientations between 1 and 2 the call
returns BOTH rows (a two-element list), and at the empty store it returns
the empty list rather than a none value. -/
theorem find_edge_or_inv_returns_all_matches :
    find_edge_or_inv [⟨0, 1, 2, 1⟩, ⟨1, 2, 1, 1⟩] 1 2 =
        [⟨0, 1, 2, 1⟩, ⟨1, 2, 1, 1⟩] ∧
      (find_edge_or_inv [⟨0, 1, 2, 1⟩, ⟨1, 2, 1, 1⟩] 1 2).length = 2 ∧
      find_edge_or_inv ([] : List EdgeSQL) 1 2 = [] :=
  ⟨rfl, rfl, rfl⟩

/-! ### C4: bulk insert is transactional -/

/-- The `EdgeSQL` row the loop body of `PlainSQL.insert_edges` adds to the
session for one input edge (plain_sql.py lines 194-197): a caller-supplied
`_id` is kept, otherwise the autoincrement key (`fresh`) is assigned. -/
def rowOf (e : Edge) (fresh : Nat) : EdgeSQL :=
  ⟨e.id.getD fresh, e.v_from, e.v_to, e.weight⟩

/-- The rows pending in the session after the `for e in es` loop of
`PlainSQL.insert_edges`, with sequential autoincrement keys. -/
def pendingRows : List Edge → Nat → List EdgeSQL
  | [], _ => []
  | e :: rest, fresh => rowOf e fresh :: pendingRows rest (fresh + 1)

/-- Embeds `PlainSQL.insert_edges(es)` (plain_sql.py lines 193-202): every edge
is added to the session, then `commit()` applies the adds as one SQL
transaction.  `commitOk` is whether the commit succeeds; on failure the
transaction does not apply and the bare `except` returns 0, on success the
function returns `len(es)`. -/
def insert_edges (s : List EdgeSQL) (es : List Edge) (fresh : Nat)
    (commitOk : Bool) : List EdgeSQL × Nat :=
  if commitOk then (s ++ pendingRows es fresh, es.length) else (s, 0)

theorem pendingRows_length :
    ∀ (es : List Edge) (fresh : Nat), (pendingRows es fresh).length = es.length := by
  intro es
  induction es with
  | nil => intro fresh; rfl
  | cons e rest ih =>
      intro fresh
      simp only [pendingRows, List.length_cons, ih]

/-- C4: for every prior store, every edge list and every autoincrement
state, a failing bulk insert leaves the store unchanged and reports 0 net
inserts, while a successful one appends exactly one row per input edge
and reports `len(es)`. -/
theorem insert_edges_rollback_or_full (s : List EdgeSQL) (es : List Edge)
    (fresh : Nat) :
    insert_edges s es fresh false = (s, 0) ∧
      (insert_edges s es fresh true).2 = es.length ∧
      (insert_edges s es fresh true).1 = s ++ pendingRows es fresh ∧
      (insert_edges s es fresh true).1.length = s.length + es.length := by
  refine ⟨rfl, rfl, rfl, ?_⟩
  simp [insert_edges, pendingRows_length]

/-! ### C8: `count_related` versus `edges_related` -/

/-- Embeds `PlainSQL.count_related(v)` (plain_sql.py lines 138-145): one SQL
aggregate query computing `COUNT(weight)` and `SUM(weight)` over the rows
with `v` as either endpoint.  SQL `SUM` over zero rows is `NULL`
(Python `None`), modelled as `none`; over `n > 0` rows it is the exact sum
of the summands. -/
def count_related (s : List EdgeSQL) (v : Int) : Nat × Option ℚ :=
  s.foldl
    (fun acc r =>
      if r.v_from == v || r.v_to == v then
        (acc.1 + 1, some (acc.2.getD 0 + r.weight))
      else acc)
    (0, none)

theorem count_related_foldl (v : Int) :
    ∀ (s : List EdgeSQL) (acc : Nat × Option ℚ),
      s.foldl
        (fun acc r =>
          if r.v_from == v || r.v_to == v then
            (acc.1 + 1, some (acc.2.getD 0 + r.weight))
          else acc)
        acc =
      (acc.1 + (s.filter (fun r => r.v_from == v || r.v_to == v)).length,
        if s.filter (fun r => r.v_from == v || r.v_to == v) = [] then acc.2
        else some (acc.2.getD 0 +
          ((s.filter (fun r => r.v_from == v || r.v_to == v)).map
            EdgeSQL.weight).sum)) := by
  intro s
  induction s with
  | nil => intro acc; simp
  | cons r rest ih =>
      intro acc
      by_cases hm : (r.v_from == v || r.v_to == v) = true
      · rw [List.foldl_cons, if_pos hm, ih,
          List.filter_cons_of_pos (p := fun r : EdgeSQL => r.v_from == v || r.v_to == v) hm]
        by_cases hrest :
            rest.filter (fun r => r.v_from == v || r.v_to == v) = []
        · rw [if_pos hrest, hrest]
          simp
        · rw [if_neg hrest]
          have hcons :
              (r :: rest.filter (fun r => r.v_from == v || r.v_to == v)) ≠ [] :=
            List.cons_ne_nil _ _
          rw [if_neg hcons]
          simp only [List.length_cons, List.map_cons, List.sum_cons,
            Option.getD_some, Prod.mk.injEq, Option.some.injEq]
          constructor
          · omega
          · ring
      · rw [List.foldl_cons, if_neg hm, ih,
          List.filter_cons_of_neg (p := fun r : EdgeSQL => r.v_from == v || r.v_to == v)
            (Bool.not_eq_true _ ▸ hm)]

/-- C8 (counterexample): at the empty store the weight component of
`count_related(0)` is the SQL `NULL` (`none`), which is not the sum of the
weights of the (zero) edges returned by `edges_related(0)`. -/
theorem count_related_empty_weight_is_none :
    (count_related [] 0).2 = none ∧
      ((edges_related [] 0).map EdgeSQL.weight).sum = 0 ∧
      (count_related [] 0).2 ≠ some (((edges_related [] 0).map EdgeSQL.weight).sum) := by
  refine ⟨rfl, rfl, ?_⟩
  simp [count_related, edges_related]

/-- C8 (amended): for every store and vertex, the count component of
`count_related(v)` equals `len(edges_related(v))`; the weight component
equals the sum of the weights of the edges returned by `edges_related(v)`
whenever that list is non-empty, and is the SQL `NULL` (`none`) — not the
empty sum 0 — when it is empty. -/
theorem count_related_agrees_with_edges_related (s : List EdgeSQL) (v : Int) :
    (count_related s v).1 = (edges_related s v).length ∧
      (count_related s v).2 =
        (if edges_related s v = [] then none
         else some (((edges_related s v).map EdgeSQL.weight).sum)) := by
  rw [count_related, count_related_foldl, edges_related]
  constructor
  · simp
  · by_cases hrest : s.filter (fun r => r.v_from == v || r.v_to == v) = []
    · rw [if_pos hrest, if_pos hrest]
    · rw [if_neg hrest, if_neg hrest]
      simp

/-! ### C7: `nodes_related_to_group` -/

/-- Embeds `GraphBase.nodes_related(v)` (graph_base.py lines 159-167): collect
both endpoints of every edge related to `v` into a set, then discard `v`
itself. -/
def nodes_related (s : List EdgeSQL) (v : Int) : Finset Int :=
  ((edges_related s v).foldl
    (fun (acc : Finset Int) (r : EdgeSQL) => insert r.v_to (insert r.v_from acc))
    ∅).erase v

/-- Embeds `PlainSQL.nodes_related_to_group(vs)` (plain_sql.py lines 117-128):
fetch the rows with an endpoint in `vs`, then for each row add `v_from`
if it is outside `vs`, elif add `v_to` if it is outside `vs`. -/
def nodes_related_to_group (s : List EdgeSQL) (vs : List Int) : Finset Int :=
  (s.filter (fun r => vs.contains r.v_from || vs.contains r.v_to)).foldl
    (fun (acc : Finset Int) (r : EdgeSQL) =>
      if !(vs.contains r.v_from) then insert r.v_from acc
      else if !(vs.contains r.v_to) then insert r.v_to acc
      else acc)
    ∅

/-- Embeds `GraphBase.nodes_related_to_group(vs)` (graph_base.py lines 169-175),
the spec's wording of the operation: the union of `nodes_related(v)` over
the members of `vs`, minus the members of `vs`. -/
def nodes_related_to_group_base (s : List EdgeSQL) (vs : List Int) : Finset Int :=
  (vs.foldl (fun acc v => acc ∪ nodes_related s v) ∅) \ vs.toFinset

theorem listContains_iff {α : Type} [BEq α] [LawfulBEq α] {vs : List α} {a : α} :
    vs.contains a = true ↔ a ∈ vs := by
  rw [List.contains_iff_exists_mem_beq]
  simp [beq_iff_eq]

theorem listContains_true {α : Type} [BEq α] [LawfulBEq α] {vs : List α} {a : α}
    (h : a ∈ vs) :
    vs.contains a = true := listContains_iff.mpr h

theorem listContains_false {α : Type} [BEq α] [LawfulBEq α] {vs : List α} {a : α}
    (h : ¬ a ∈ vs) :
    vs.contains a = false := by
  rw [← Bool.not_eq_true]
  exact fun hc => h (listContains_iff.mp hc)

theorem mem_foldl_insert_pair (l : List EdgeSQL) (init : Finset Int) (x : Int) :
    x ∈ l.foldl
        (fun (acc : Finset Int) (r : EdgeSQL) => insert r.v_to (insert r.v_from acc))
        init ↔
      x ∈ init ∨ ∃ r ∈ l, x = r.v_from ∨ x = r.v_to := by
  induction l generalizing init with
  | nil => simp
  | cons r rest ih =>
      rw [List.foldl_cons, ih]
      simp only [Finset.mem_insert, List.mem_cons]
      constructor
      · rintro ((h | h | h) | ⟨r2, hr2, h2⟩)
        · exact Or.inr ⟨r, Or.inl rfl, Or.inr h⟩
        · exact Or.inr ⟨r, Or.inl rfl, Or.inl h⟩
        · exact Or.inl h
        · exact Or.inr ⟨r2, Or.inr hr2, h2⟩
      · rintro (h | ⟨r2, hr2 | hr2, h2⟩)
        · exact Or.inl (Or.inr (Or.inr h))
        · subst hr2
          rcases h2 with h2 | h2
          · exact Or.inl (Or.inr (Or.inl h2))
          · exact Or.inl (Or.inl h2)
        · exact Or.inr ⟨r2, hr2, h2⟩

theorem mem_nodes_related (s : List EdgeSQL) (v x : Int) :
    x ∈ nodes_related s v ↔
      x ≠ v ∧ ∃ r ∈ s, (r.v_from = v ∨ r.v_to = v) ∧ (x = r.v_from ∨ x = r.v_to) := by
  rw [nodes_related, Finset.mem_erase, mem_foldl_insert_pair]
  simp only [Finset.not_mem_empty, false_or, edges_related, List.mem_filter,
    Bool.or_eq_true, beq_iff_eq]
  constructor
  · rintro ⟨hx, r, ⟨hr, hrel⟩, hend⟩
    exact ⟨hx, r, hr, hrel, hend⟩
  · rintro ⟨hx, r, hr, hrel, hend⟩
    exact ⟨hx, r, ⟨hr, hrel⟩, hend⟩

theorem mem_group_foldl (vs : List Int) (l : List EdgeSQL) (init : Finset Int)
    (x : Int) :
    x ∈ l.foldl
        (fun (acc : Finset Int) (r : EdgeSQL) =>
          if !(vs.contains r.v_from) then insert r.v_from acc
          else if !(vs.contains r.v_to) then insert r.v_to acc
          else acc)
        init ↔
      x ∈ init ∨ ∃ r ∈ l,
        (¬ r.v_from ∈ vs ∧ x = r.v_from) ∨
        (r.v_from ∈ vs ∧ ¬ r.v_to ∈ vs ∧ x = r.v_to) := by
  induction l generalizing init with
  | nil => simp
  | cons r rest ih =>
      rw [List.foldl_cons]
      by_cases hf : r.v_from ∈ vs
      · by_cases ht : r.v_to ∈ vs
        · rw [if_neg (by rw [listContains_true hf]; decide),
            if_neg (by rw [listContains_true ht]; decide), ih]
          simp only [List.mem_cons]
          constructor
          · rintro (h | ⟨r2, hr2, h2⟩)
            · exact Or.inl h
            · exact Or.inr ⟨r2, Or.inr hr2, h2⟩
          · rintro (h | ⟨r2, hr2 | hr2, h2⟩)
            · exact Or.inl h
            · subst hr2
              rcases h2 with ⟨h2, _⟩ | ⟨_, h2, _⟩
              · exact absurd hf h2
              · exact absurd ht h2
            · exact Or.inr ⟨r2, hr2, h2⟩
        · rw [if_neg (by rw [listContains_true hf]; decide),
            if_pos (by rw [listContains_false ht]; decide), ih]
          simp only [Finset.mem_insert, List.mem_cons]
          constructor
          · rintro ((h | h) | ⟨r2, hr2, h2⟩)
            · exact Or.inr ⟨r, Or.inl rfl, Or.inr ⟨hf, ht, h⟩⟩
            · exact Or.inl h
            · exact Or.inr ⟨r2, Or.inr hr2, h2⟩
          · rintro (h | ⟨r2, hr2 | hr2, h2⟩)
            · exact Or.inl (Or.inr h)
            · subst hr2
              rcases h2 with ⟨h2, _⟩ | ⟨_, _, h2⟩
              · exact absurd hf h2
              · exact Or.inl (Or.inl h2)
            · exact Or.inr ⟨r2, hr2, h2⟩
      · rw [if_pos (by rw [listContains_false hf]; decide), ih]
        simp only [Finset.mem_insert, List.mem_cons]
        constructor
        · rintro ((h | h) | ⟨r2, hr2, h2⟩)
          · exact Or.inr ⟨r, Or.inl rfl, Or.inl ⟨hf, h⟩⟩
          · exact Or.inl h
          · exact Or.inr ⟨r2, Or.inr hr2, h2⟩
        · rintro (h | ⟨r2, hr2 | hr2, h2⟩)
          · exact Or.inl (Or.inr h)
          · subst hr2
            rcases h2 with ⟨_, h2⟩ | ⟨h2, _⟩
            · exact Or.inl (Or.inl h2)
            · exact absurd h2 hf
          · exact Or.inr ⟨r2, hr2, h2⟩

theorem mem_nodes_related_to_group (s : List EdgeSQL) (vs : List Int) (x : Int) :
    x ∈ nodes_related_to_group s vs ↔
      ∃ r ∈ s,
        (r.v_to ∈ vs ∧ ¬ r.v_from ∈ vs ∧ x = r.v_from) ∨
        (r.v_from ∈ vs ∧ ¬ r.v_to ∈ vs ∧ x = r.v_to) := by
  rw [nodes_related_to_group, mem_group_foldl]
  simp only [Finset.not_mem_empty, false_or, List.mem_filter, Bool.or_eq_true,
    listContains_iff]
  constructor
  · rintro ⟨r, ⟨hr, hfil⟩, h2⟩
    refine ⟨r, hr, ?_⟩
    rcases h2 with ⟨h2, h3⟩ | h2
    · rcases hfil with hfil | hfil
      · exact absurd hfil h2
      · exact Or.inl ⟨hfil, h2, h3⟩
    · exact Or.inr h2
  · rintro ⟨r, hr, h2⟩
    rcases h2 with ⟨h2, h3, h4⟩ | h2
    · exact ⟨r, ⟨hr, Or.inr h2⟩, Or.inl ⟨h3, h4⟩⟩
    · exact ⟨r, ⟨hr, Or.inl h2.1⟩, Or.inr h2⟩

theorem mem_union_foldl (s : List EdgeSQL) (vs : List Int) (init : Finset Int)
    (x : Int) :
    x ∈ vs.foldl (fun (acc : Finset Int) (v : Int) => acc ∪ nodes_related s v)
        init ↔
      x ∈ init ∨ ∃ v ∈ vs, x ∈ nodes_related s v := by
  induction vs generalizing init with
  | nil => simp
  | cons v rest ih =>
      rw [List.foldl_cons, ih]
      simp only [Finset.mem_union, List.mem_cons]
      constructor
      · rintro ((h | h) | ⟨v2, hv2, h2⟩)
        · exact Or.inl h
        · exact Or.inr ⟨v, Or.inl rfl, h⟩
        · exact Or.inr ⟨v2, Or.inr hv2, h2⟩
      · rintro (h | ⟨v2, hv2 | hv2, h2⟩)
        · exact Or.inl (Or.inl h)
        · exact Or.inl (Or.inr (hv2 ▸ h2))
        · exact Or.inr ⟨v2, hv2, h2⟩

/-- C7: for every store and every non-empty vertex list `vs`, the set
returned by `PlainSQL.nodes_related_to_group(vs)` contains no member of
`vs`, and equals the union of the neighbor sets (`nodes_related`) of the
members of `vs` minus the members of `vs` — the set computed by
`GraphBase.nodes_related_to_group`, which is the spec's wording of the
operation. -/
theorem nodes_related_to_group_correct (s : List EdgeSQL) (vs : List Int)
    (h : vs ≠ []) :
    (∀ x ∈ nodes_related_to_group s vs, ¬ x ∈ vs) ∧
      nodes_related_to_group s vs = nodes_related_to_group_base s vs := by
  have part1 : ∀ x ∈ nodes_related_to_group s vs, ¬ x ∈ vs := by
    intro x hx
    rcases (mem_nodes_related_to_group s vs x).mp hx with
      ⟨r, _, ⟨_, h2, h3⟩ | ⟨_, h2, h3⟩⟩
    · exact h3 ▸ h2
    · exact h3 ▸ h2
  refine ⟨part1, ?_⟩
  ext x
  rw [mem_nodes_related_to_group, nodes_related_to_group_base, Finset.mem_sdiff,
    mem_union_foldl]
  simp only [Finset.not_mem_empty, false_or, List.mem_toFinset, mem_nodes_related]
  constructor
  · rintro ⟨r, hr, ⟨hto, hfrom, hx⟩ | ⟨hfrom, hto, hx⟩⟩
    · subst hx
      refine ⟨⟨r.v_to, hto, ?_, r, hr, Or.inr rfl, Or.inl rfl⟩, hfrom⟩
      intro hEq
      exact hfrom (hEq ▸ hto)
    · subst hx
      refine ⟨⟨r.v_from, hfrom, ?_, r, hr, Or.inl rfl, Or.inr rfl⟩, hto⟩
      intro hEq
      exact hto (hEq ▸ hfrom)
  · rintro ⟨⟨v, hv, hxv, r, hr, hrel, hend⟩, hxnot⟩
    refine ⟨r, hr, ?_⟩
    rcases hend with hend | hend
    · rcases hrel with hrel | hrel
      · exact absurd (hend.trans hrel) hxv
      · exact Or.inl ⟨hrel ▸ hv, hend ▸ hxnot, hend⟩
    · rcases hrel with hrel | hrel
      · exact Or.inr ⟨hrel ▸ hv, hend ▸ hxnot, hend⟩
      · exact absurd (hend.trans hrel) hxv

/-- C7 (witness): the theorem applied to the store holding the single row
`(1, 2)` and the group `[1]`. -/
theorem nodes_related_to_group_correct_witness :
    nodes_related_to_group [⟨0, 1, 2, 1⟩] [1] =
      nodes_related_to_group_base [⟨0, 1, 2, 1⟩] [1] :=
  (nodes_related_to_group_correct [⟨0, 1, 2, 1⟩] [1] (by decide)).2

/-! ### C5: the Runner's wall-clock budget

`P3Bench`'s read loops (`find_e`, `find_es_to`, `find_es_related`,
`find_vs_related`, `count_v_related`, `count_v_followers`,
P3Bench.py lines 169-284) all share one shape: per sampled item they issue
the query, increment `cnt`, read the wall clock, and `break` when the
elapsed time exceeds `max_seconds_per_query`.  The wall clock is modelled
by `elapsed i`, the `time() - t0` value observed after processing the
item at 0-based position `i`.  The write loops (`remove_e`, `upsert_e`,
`remove_es`, `upsert_es`, lines 286-312) read no clock at all. -/

/-- The counting loop of the read operations: `cnt += 1` per item, then
`break` if `dt > max_seconds_per_query`. -/
def timedLoopCount {α : Type} (budget : ℚ) (elapsed : Nat → ℚ) :
    List α → Nat → Nat
  | [], _ => 0
  | _ :: rest, i =>
      if budget < elapsed i then 1
      else 1 + timedLoopCount budget elapsed rest (i + 1)

/-- Embeds `P3Bench.find_e` (P3Bench.py lines 169-181): the returned `cnt` of the
budgeted loop over `tasks.edges_to_query`, starting the clock at item 0. -/
def find_e_count {α : Type} (budget : ℚ) (elapsed : Nat → ℚ)
    (items : List α) : Nat :=
  timedLoopCount budget elapsed items 0

/-- Embeds `P3Bench.remove_e` (P3Bench.py lines 286-291): `cnt += 1` per sampled
edge, with NO time check anywhere in the loop. -/
def remove_e_count {α : Type} (items : List α) : Nat :=
  items.foldl (fun c _ => c + 1) 0

theorem remove_e_count_eq_length {α : Type} (items : List α) :
    remove_e_count items = items.length := by
  have haux : ∀ (l : List α) (c : Nat), l.foldl (fun c _ => c + 1) c = c + l.length := by
    intro l
    induction l with
    | nil => intro c; simp
    | cons x rest ih =>
        intro c
        rw [List.foldl_cons, ih]
        simp only [List.length_cons]
        omega
  rw [remove_e_count, haux]
  omega

theorem timedLoopCount_le_length {α : Type} (budget : ℚ) (elapsed : Nat → ℚ) :
    ∀ (items : List α) (i : Nat),
      timedLoopCount budget elapsed items i ≤ items.length := by
  intro items
  induction items with
  | nil => intro i; exact Nat.le_refl 0
  | cons x rest ih =>
      intro i
      rw [timedLoopCount]
      by_cases hb : budget < elapsed i
      · rw [if_pos hb]
        simp
      · rw [if_neg hb, List.length_cons]
        have := ih (i + 1)
        omega

theorem timedLoopCount_stops_early {α : Type} (budget : ℚ) (elapsed : Nat → ℚ) :
    ∀ (items : List α) (i k : Nat), k < items.length →
      budget < elapsed (i + k) →
      timedLoopCount budget elapsed items i ≤ k + 1 := by
  intro items
  induction items with
  | nil => intro i k hk _; exact absurd hk (Nat.not_lt_zero k)
  | cons x rest ih =>
      intro i k hk hexc
      rw [timedLoopCount]
      by_cases hb : budget < elapsed i
      · rw [if_pos hb]
        omega
      · rw [if_neg hb]
        have hk0 : k ≠ 0 := by
          intro h0
          rw [h0, Nat.add_zero] at hexc
          exact hb hexc
        have hlt : k - 1 < rest.length := by
          rw [List.length_cons] at hk
          omega
        have hexc2 : budget < elapsed ((i + 1) + (k - 1)) := by
          have : (i + 1) + (k - 1) = i + k := by omega
          rw [this]
          exact hexc
        have := ih (i + 1) (k - 1) hlt hexc2
        omega

/-- C5 (counterexample): over a 10,000-item sample whose very first item
already exceeds the budget (elapsed 61s against a 60s budget), the write
operation `remove_e` — one of the named operations in the Runner's fixed
sequence, and one the claim's sources cite — still processes all 10,000
items and reports 10,000, not a count strictly below 10,000: its loop
performs no elapsed-time check at all. -/
theorem remove_e_ignores_budget :
    remove_e_count (List.range 10000) = 10000 ∧
      ¬ remove_e_count (List.range 10000) < 10000 ∧
      (60 : ℚ) < 61 := by
  have h := remove_e_count_eq_length (List.range 10000)
  rw [List.length_range] at h
  refine ⟨h, by omega, by norm_num⟩

/-- C5 (amended): the budget check exists only in the READ operations.
For every read loop (modelled by `find_e_count`; `find_es_to`,
`find_es_related`, `find_vs_related`, `count_v_related` and
`count_v_followers` share the identical loop shape), if the wall clock
exceeds the budget at some item that is not the last one of the sample,
the loop stops early and the reported count is strictly between 0 and the
sample size, with no exception; the write loops (modelled by
`remove_e_count`) process every sampled item regardless of the budget. -/
theorem read_budget_partial_write_unbounded {α : Type} (budget : ℚ)
    (elapsed : Nat → ℚ) (items : List α) (k : Nat)
    (hk : k + 1 < items.length) (hexc : budget < elapsed k) :
    0 < find_e_count budget elapsed items ∧
      find_e_count budget elapsed items < items.length ∧
      remove_e_count items = items.length := by
  refine ⟨?_, ?_, remove_e_count_eq_length items⟩
  · rw [find_e_count]
    cases items with
    | nil => simp at hk
    | cons x rest =>
        rw [timedLoopCount]
        by_cases hb : budget < elapsed 0
        · rw [if_pos hb]; omega
        · rw [if_neg hb]; omega
  · rw [find_e_count]
    have := timedLoopCount_stops_early budget elapsed items 0 k
      (by omega) (by simpa using hexc)
    omega

/-- C5 (witness): the amended theorem applied to a 3-item sample whose
first item exceeds a 60-second budget with 61 seconds elapsed. -/
theorem read_budget_partial_write_unbounded_witness :
    0 < find_e_count 60 (fun _ => 61) (List.range 3) ∧
      find_e_count 60 (fun _ => 61) (List.range 3) < (List.range 3).length ∧
      remove_e_count (List.range 3) = (List.range 3).length :=
  read_budget_partial_write_unbounded 60 (fun _ => 61) (List.range 3) 0
    (by simp) (by norm_num)

/-! ### C6: resumable measurement skipping

`P3Bench.bench_buffered_graph` (P3Bench.py lines 43-124) first calls
`self.gdb.number_of_edges()` — a backend call — then returns if the
backend is empty and not in-memory, and otherwise runs the fixed task
sequence through `bench_task` (lines 126-151), which skips a task —
making no backend call for it — whenever `repeat_existing` is false and
the stats file already contains the measurement. -/

/-- The named operations of the Runner's fixed sequence. -/
inductive BenchTask where
  | importCSV
  | findE
  | findEsTo
  | findEsRelated
  | findVsRelated
  | countVRelated
  | countVFollowers
  | removeE
  | upsertE
  | removeEs
  | upsertEs
deriving Repr, DecidableEq

/-- The fixed task sequence of `bench_buffered_graph` (with the default
`remove_all_afterwards=False`): the CSV import runs only for in-memory
backends, then the six read tasks, then the four reversible write
tasks. -/
def taskSequence (isInRam : Bool) : List BenchTask :=
  (if isInRam then [BenchTask.importCSV] else []) ++
    [BenchTask.findE, BenchTask.findEsTo, BenchTask.findEsRelated,
     BenchTask.findVsRelated, BenchTask.countVRelated,
     BenchTask.countVFollowers, BenchTask.removeE, BenchTask.upsertE,
     BenchTask.removeEs, BenchTask.upsertEs]

/-- Embeds when `bench_task` runs its operation: iff re-measurement is forced or the
measurement store does not yet contain the task's key. -/
def benchTaskRuns (repeatExisting : Bool) (measured : List BenchTask)
    (t : BenchTask) : Bool :=
  repeatExisting || !(measured.contains t)

/-- One `bench_buffered_graph` pass, returning the total number of
backend calls made and the list of tasks whose operation was executed.
`callsOf t` is the number of backend calls task `t`'s operation makes
when it runs; the leading 1 is the unconditional `number_of_edges()`
emptiness probe. -/
def benchBufferedGraph (repeatExisting : Bool) (measured : List BenchTask)
    (isInRam : Bool) (numEdges : Nat) (callsOf : BenchTask → Nat) :
    Nat × List BenchTask :=
  if numEdges == 0 && !isInRam then (1, [])
  else
    let executed := (taskSequence isInRam).filter
      (benchTaskRuns repeatExisting measured)
    (1 + (executed.map callsOf).sum, executed)

/-- C6 (counterexample): a second Runner pass over an unchanged populated
disk-backed pair with every operation already measured and re-measurement
not forced still performs one backend call — the `number_of_edges()`
emptiness probe runs before any skip check — so the claimed "zero
additional backend calls" is false even though every operation is
skipped. -/
theorem second_run_still_probes_backend :
    (benchBufferedGraph false (taskSequence false) false 2 (fun _ => 1)).1 = 1 ∧
      (benchBufferedGraph false (taskSequence false) false 2 (fun _ => 1)).1 ≠ 0 ∧
      (benchBufferedGraph false (taskSequence false) false 2 (fun _ => 1)).2 = [] := by
  refine ⟨?_, ?_, ?_⟩ <;> decide

/-- C6 (amended): on a second Runner pass over an unchanged (dataset,
backend) pair — every task of the fixed sequence already measured, and
re-measurement not forced — every operation is skipped (none is
executed), and the only backend call made is the single
`number_of_edges()` emptiness probe: no operation reaches the backend. -/
theorem second_run_skips_every_task (measured : List BenchTask)
    (isInRam : Bool) (numEdges : Nat) (callsOf : BenchTask → Nat)
    (hall : ∀ t ∈ taskSequence isInRam, t ∈ measured) :
    (benchBufferedGraph false measured isInRam numEdges callsOf).2 = [] ∧
      (benchBufferedGraph false measured isInRam numEdges callsOf).1 ≤ 1 := by
  have hfil : (taskSequence isInRam).filter (benchTaskRuns false measured) = [] := by
    apply List.filter_eq_nil_iff.mpr
    intro t ht
    simp only [benchTaskRuns, Bool.false_or, Bool.not_eq_true']
    rw [listContains_true (hall t ht)]
    decide
  rw [benchBufferedGraph]
  by_cases hret : (numEdges == 0 && !isInRam) = true
  · rw [if_pos hret]
    simp
  · rw [if_neg hret]
    simp only [hfil]
    simp

/-- C6 (witness): the amended theorem applied to a populated disk-backed
pair with the full task sequence already measured. -/
theorem second_run_skips_every_task_witness :
    (benchBufferedGraph false (taskSequence false) false 2 (fun _ => 2)).2 = [] ∧
      (benchBufferedGraph false (taskSequence false) false 2 (fun _ => 2)).1 ≤ 1 :=
  second_run_skips_every_task (taskSequence false) false 2 (fun _ => 2)
    (fun t ht => ht)

/-! ### C10: the Neo4j adapter truncates edge weights

`Neo4j.insert_edge`, `Neo4j.upsert_edge` and `Neo4j.insert_edges`
(graph_neo4j.py lines 325-379) all render the relationship properties
with the template `'{_id: %d, weight: %d}'`: Python's `%d` conversion
applies `int()` to the float weight, i.e. truncation toward zero, so the
Cypher query carries the truncated integer, not the caller's weight. -/

/-- The edge record the Neo4j adapter consumes: the keys `e['v1']`,
`e['v2']`, `e['_id']`, `e['weight']`, `e['directed']` read by
graph_neo4j.py. -/
structure NeoEdge where
  v1 : Int
  v2 : Int
  _id : Int
  weight : ℚ
  directed : Bool
deriving Repr, DecidableEq

/-- Python's `"%d" % w` conversion: `int(w)`, truncation toward zero. -/
def pyFormatInt (q : ℚ) : Int :=
  q.num.tdiv (q.den : Int)

/-- The relationship-creation clause the three operations embed into the
Cypher query: endpoints, `_id` and `weight` rendered with `%d`, and the
arrow chosen from `e['directed']`. -/
structure CreateEdgeClause where
  v1 : Int
  v2 : Int
  _id : Int
  weight : Int
  directed : Bool
deriving Repr, DecidableEq

/-- The clause built for one edge by the shared property template of
`insert_edge`, `upsert_edge` and `insert_edges`. -/
def edgeClause (e : NeoEdge) : CreateEdgeClause :=
  ⟨e.v1, e.v2, e._id, pyFormatInt e.weight, e.directed⟩

/-- Embeds `Neo4j.insert_edge` (graph_neo4j.py lines 344-355): `CREATE` always
adds the rendered relationship. -/
def neo4j_insert_edge (s : List CreateEdgeClause) (e : NeoEdge) :
    List CreateEdgeClause :=
  s ++ [edgeClause e]

/-- Embeds `Neo4j.upsert_edge` (graph_neo4j.py lines 325-342): `MERGE` adds the
rendered relationship unless an identical one exists. -/
def neo4j_upsert_edge (s : List CreateEdgeClause) (e : NeoEdge) :
    List CreateEdgeClause :=
  if s.contains (edgeClause e) then s else s ++ [edgeClause e]

/-- Embeds `Neo4j.insert_edges` (graph_neo4j.py lines 357-379): one `CREATE`
clause per edge, all rendered with the same `%d` template. -/
def neo4j_insert_edges (s : List CreateEdgeClause) (es : List NeoEdge) :
    List CreateEdgeClause :=
  s ++ es.map edgeClause

theorem pyFormatInt_ne_of_den_ne_one {q : ℚ} (h : q.den ≠ 1) :
    ((pyFormatInt q : Int) : ℚ) ≠ q := by
  intro heq
  apply h
  rw [← heq]
  exact Rat.den_intCast _

/-- C10: in the Neo4j adapter, `insert_edge`, `upsert_edge` and
`insert_edges` all store the weight rendered by the `%d` conversion —
`int(weight)`, truncation toward zero — so for every edge whose weight is
not an integer the stored weight differs from the weight supplied by the
caller. -/
theorem neo4j_weight_truncated (e : NeoEdge) (s : List CreateEdgeClause)
    (h : e.weight.den ≠ 1) :
    (edgeClause e).weight = pyFormatInt e.weight ∧
      (((edgeClause e).weight : Int) : ℚ) ≠ e.weight ∧
      neo4j_insert_edge s e = s ++ [edgeClause e] ∧
      neo4j_insert_edges s [e] = s ++ [edgeClause e] ∧
      (neo4j_upsert_edge s e = s ∨ neo4j_upsert_edge s e = s ++ [edgeClause e]) := by
  refine ⟨rfl, pyFormatInt_ne_of_den_ne_one h, rfl, rfl, ?_⟩
  rw [neo4j_upsert_edge]
  by_cases hc : s.contains (edgeClause e) = true
  · rw [if_pos hc]
    exact Or.inl rfl
  · rw [if_neg hc]
    exact Or.inr rfl

/-- C10 (witness): the theorem applied to an edge of weight 3/2 — the
clause carries weight 1, not 3/2. -/
theorem neo4j_weight_truncated_witness :
    (edgeClause ⟨1, 2, 0, mkRat 3 2, true⟩).weight =
        pyFormatInt (mkRat 3 2) ∧
      (((edgeClause ⟨1, 2, 0, mkRat 3 2, true⟩).weight : Int) : ℚ) ≠ mkRat 3 2 ∧
      neo4j_insert_edge [] ⟨1, 2, 0, mkRat 3 2, true⟩ =
        [] ++ [edgeClause ⟨1, 2, 0, mkRat 3 2, true⟩] ∧
      neo4j_insert_edges [] [⟨1, 2, 0, mkRat 3 2, true⟩] =
        [] ++ [edgeClause ⟨1, 2, 0, mkRat 3 2, true⟩] ∧
      (neo4j_upsert_edge [] ⟨1, 2, 0, mkRat 3 2, true⟩ = [] ∨
        neo4j_upsert_edge [] ⟨1, 2, 0, mkRat 3 2, true⟩ =
          [] ++ [edgeClause ⟨1, 2, 0, mkRat 3 2, true⟩]) :=
  neo4j_weight_truncated ⟨1, 2, 0, mkRat 3 2, true⟩ [] (by decide)

end NetworkXum
